import Mathlib

/-!
Shallow embedding of the storage-engine layer of the LRUCache repository.

The definitions below are translated from the Go sources:
* the intrusive slot cache (`node`, `cache`, `Create`, `cache.adjust`,
  `cache.put`, `cache.get`, `cache.del`) and the sharded two-tier engine
  (`lru2Store` with `Get` / `Set` / `SetWithExpiration` / `Delete`),
* the BKDR hash, the power-of-two mask and the shard router,
* the single-tier byte-budgeted LRU engine (`lruCache`),
* the background approximate clock.

Modelling conventions:
* Go slices become `List`s with total read helpers (`dget`, `mget`); an
  out-of-range read returns the zero value where Go would panic, and every
  use site whose index can go out of range in Go is annotated.
* The Go `map[string]uint16` becomes an association list with `hfind`,
  `hinsert` and `herase`; keys stay unique exactly as in a Go map.
* `Value` is an interface in Go, so a stored value is `Option V` (`none`
  models a nil interface value).
* The process-wide approximate clock is passed explicitly: an operation
  receives the value `Now()` would return as its `currentTime` argument,
  and a single call is modelled with one clock reading.
* The eviction callback is modelled by accumulating the `(key, value)`
  pairs it would be invoked with; `hasCb` mirrors `onEvicted != nil`.
-/

set_option linter.unusedVariables false

namespace LRUCacheProof

/-- Total read of the link table `dlnk`: slot `i` holds a `(prev, next)`
pair, and slot `0` is the sentinel holding `(head, tail)`. -/
def dget (d : List (Nat × Nat)) (i : Nat) : Nat × Nat := d.getD i (0, 0)

/-- Entry of the intrusive slot cache, from the source: `node{k, v, expireAt}`.
`v` is a Go interface value and may be nil, hence `Option V`. -/
structure node (V : Type) where
  k : String
  v : Option V
  expireAt : Int
  deriving DecidableEq, Repr

/-- Total read of the entry arena `m`; the default is the zero `node`,
which is what a fresh Go `[]node` slot contains. -/
def mget {V : Type} (m : List (node V)) (i : Nat) : node V := m.getD i ⟨"", none, 0⟩

/-- Lookup in the key index (Go `c.hmap[key]`). -/
def hfind {α : Type} (h : List (String × α)) (key : String) : Option α :=
  match h with
  | [] => none
  | (k', a) :: t => if k' = key then some a else hfind t key

/-- Go map assignment `h[key] = a`: replace the existing entry or add one. -/
def hinsert {α : Type} (h : List (String × α)) (key : String) (a : α) : List (String × α) :=
  match h with
  | [] => [(key, a)]
  | (k', b) :: t => if k' = key then (key, a) :: t else (k', b) :: hinsert t key a

/-- Go `delete(h, key)`. -/
def herase {α : Type} (h : List (String × α)) (key : String) : List (String × α) :=
  match h with
  | [] => []
  | (k', b) :: t => if k' = key then t else (k', b) :: herase t key

/-- `Head = 0`: list head, the most recently used slot. -/
def Head : Nat := 0

/-- `Tail = 1`: list tail, the least recently used slot. -/
def Tail : Nat := 1

/-- One tier of the intrusive slot cache, from the source: an index-linked
list over a fixed arena plus a key index.  Indices into `m` are 1-based;
`dlnk` has one extra sentinel slot at index 0. -/
structure cache (V : Type) where
  dlnk : List (Nat × Nat)
  m : List (node V)
  hmap : List (String × Nat)
  last : Nat
  deriving DecidableEq, Repr

/-- `Create(cap)` from the source: pre-sized arena, empty index. -/
def Create {V : Type} (cap : Nat) : cache V :=
  { dlnk := List.replicate (cap + 1) (0, 0)
    m := List.replicate cap ⟨"", none, 0⟩
    hmap := []
    last := 0 }

/-- `cache.adjust(idx, f, t)` from the source: unlink slot `idx` and relink
it at the head (`t = Head`) or at the tail (otherwise).  The writes are
performed in the source's order, each read seeing the previous writes.
As in the source, the `f` argument is accepted but never read. -/
def cache.adjust {V : Type} (c : cache V) (idx f t : Nat) : cache V :=
  if idx = 0 then c else
    let prev := (dget c.dlnk idx).1
    let next := (dget c.dlnk idx).2
    let d0 := c.dlnk
    let d1 := if prev ≠ 0 then d0.set prev ((dget d0 prev).1, next) else d0
    let d2 := if next ≠ 0 then d1.set next (prev, (dget d1 next).2) else d1
    let d3 := if (dget d2 0).1 = idx then d2.set 0 (next, (dget d2 0).2) else d2
    let d4 := if (dget d3 0).2 = idx then d3.set 0 ((dget d3 0).1, prev) else d3
    if t = Head then
      let d5 := d4.set idx (0, (dget d4 idx).2)
      let d6 := d5.set idx ((dget d5 idx).1, (dget d5 0).1)
      let d7 := if (dget d6 0).1 ≠ 0 then
          d6.set (dget d6 0).1 (idx, (dget d6 (dget d6 0).1).2) else d6
      let d8 := d7.set 0 (idx, (dget d7 0).2)
      { c with dlnk := d8 }
    else
      let d5 := d4.set idx ((dget d4 idx).1, 0)
      let d6 := d5.set idx ((dget d5 0).2, (dget d5 idx).2)
      let d7 := if (dget d6 0).2 ≠ 0 then
          d6.set (dget d6 0).2 ((dget d6 (dget d6 0).2).1, idx) else d6
      let d8 := d7.set 0 ((dget d7 0).1, idx)
      { c with dlnk := d8 }

/-- `cache.put(key, val, expireAt, onEvicted)` from the source.  Returns the
new cache, the eviction-callback invocations, and the Go return value
(1 for insert, 0 for update).  In the full branch, Go reads
`c.m[c.dlnk[0][Tail]-1]` with uint16 arithmetic: if the tail sentinel is 0
this is `c.m[65535]`, an index-out-of-range panic; the total model reads
the zero node there instead. -/
def cache.put {V : Type} (c : cache V) (key : String) (val : Option V) (expireAt : Int)
    (hasCb : Bool) : cache V × List (String × Option V) × Nat :=
  match hfind c.hmap key with
  | some idx =>
    let c1 : cache V :=
      { c with m := c.m.set (idx - 1) { mget c.m (idx - 1) with v := val, expireAt := expireAt } }
    (c1.adjust idx Tail Head, [], 0)
  | none =>
    if c.last = c.m.length then
      let tidx := (dget c.dlnk 0).2
      let tl := mget c.m (tidx - 1)
      let evs := if hasCb ∧ tl.expireAt > 0 then [(tl.k, tl.v)] else []
      let h1 := herase c.hmap tl.k
      let h2 := hinsert h1 key tidx
      let c1 : cache V := { c with hmap := h2, m := c.m.set (tidx - 1) ⟨key, val, expireAt⟩ }
      (c1.adjust tidx Tail Head, evs, 1)
    else
      let last1 := c.last + 1
      let d0 := c.dlnk
      let d1 := if c.hmap.length = 0 then d0.set 0 ((dget d0 0).1, last1)
        else d0.set (dget d0 0).1 (last1, (dget d0 (dget d0 0).1).2)
      let m1 := c.m.set (last1 - 1) ⟨key, val, expireAt⟩
      let d2 := d1.set last1 (0, (dget d1 0).1)
      let d3 := if (dget d2 0).1 ≠ 0 then
          d2.set (dget d2 0).1 (last1, (dget d2 (dget d2 0).1).2) else d2
      let d4 := d3.set 0 (last1, (dget d3 0).2)
      let d5 := if (dget d4 0).2 = 0 then d4.set 0 ((dget d4 0).1, last1) else d4
      (⟨d5, m1, hinsert c.hmap key last1, last1⟩, [], 1)

/-- `cache.get(key)` from the source: on a hit, bump the slot to the head
and return the entry; expiry is not checked here. -/
def cache.get {V : Type} (c : cache V) (key : String) : cache V × Option (node V) :=
  match hfind c.hmap key with
  | some idx => (c.adjust idx Tail Head, some (mget c.m (idx - 1)))
  | none => (c, none)

/-- `cache.del(key)` from the source: only a live entry (`expireAt > 0`) is
removed; its expiry becomes the tombstone 0, the slot moves to the tail,
and the node (after tombstoning, as through the Go pointer) plus the prior
expiry are returned. -/
def cache.del {V : Type} (c : cache V) (key : String) : cache V × Option (node V) × Int :=
  match hfind c.hmap key with
  | some idx =>
    if (mget c.m (idx - 1)).expireAt > 0 then
      let e := (mget c.m (idx - 1)).expireAt
      let m1 := c.m.set (idx - 1) { mget c.m (idx - 1) with expireAt := 0 }
      let c1 : cache V := { c with m := m1 }
      (c1.adjust idx Head Tail, some (mget m1 (idx - 1)), e)
    else (c, none, 0)
  | none => (c, none, 0)

/-- A key is live in a tier when the key index maps it to a slot whose
expiry is positive; this is exactly what `walk` visits and what every read
path of the source treats as present. -/
def cache.liveB {V : Type} (c : cache V) (key : String) : Bool :=
  match hfind c.hmap key with
  | some idx => decide ((mget c.m (idx - 1)).expireAt > 0)
  | none => false

/-- Number of live entries in a tier: used slots whose expiry is positive. -/
def cache.liveCount {V : Type} (c : cache V) : Nat :=
  ((List.range c.last).filter (fun i => decide ((mget c.m i).expireAt > 0))).length

/-! ### Hash and shard router -/

/-- Wrap an integer into the `int32` range, the semantics of Go's wrapping
32-bit signed arithmetic. -/
def wrap32 (x : Int) : Int := (x + 2 ^ 31) % 2 ^ 32 - 2 ^ 31

/-- `hashBKRD(key)` from the source: fold each byte of the key as
`hash = hash*131 + byte` in wrapping `int32` arithmetic.  The key is taken
as its byte sequence.  Determinism is immediate: this is a pure function
of the bytes. -/
def hashBKRD (key : List Nat) : Int :=
  key.foldl (fun hash b => wrap32 (hash * 131 + (b : Int))) 0

/-- UTF-8 encoding of one character as byte values, the standard encoding
(Go strings and Lean's `String.toUTF8` agree on it). -/
def utf8BytesOfChar (c : Char) : List Nat :=
  let v := c.toNat
  if v < 128 then [v]
  else if v < 2048 then [192 ||| v >>> 6, 128 ||| v &&& 63]
  else if v < 65536 then [224 ||| v >>> 12, 128 ||| (v >>> 6) &&& 63, 128 ||| v &&& 63]
  else [240 ||| v >>> 18, 128 ||| (v >>> 12) &&& 63, 128 ||| (v >>> 6) &&& 63, 128 ||| v &&& 63]

/-- Byte sequence of a Go string (UTF-8), over which `hashBKRD` iterates. -/
def strBytes (s : String) : List Nat := (s.data.map utf8BytesOfChar).flatten

/-- `maskOfNextPowOf2(cap)` from the source: `cap - 1` for a power of two,
otherwise the bit-smearing of `cap`.  All intermediate values stay below
`2 ^ 16` for a `uint16` input, so plain `Nat` arithmetic is faithful. -/
def maskOfNextPowOf2 (cap : Nat) : Nat :=
  if 0 < cap ∧ cap &&& (cap - 1) = 0 then cap - 1
  else
    let c1 := cap ||| cap >>> 1
    let c2 := c1 ||| c1 >>> 2
    let c3 := c2 ||| c2 >>> 4
    c3 ||| c3 >>> 8

/-- Go's `&` on two `int32` values, phrased through their unsigned 32-bit
representatives (two's complement).  For a non-negative right operand this
is exactly the source's `hashBKRD(key) & s.mask`. -/
def and32 (a b : Int) : Int := ((a % 2 ^ 32).toNat &&& (b % 2 ^ 32).toNat : Nat)

/-- Shard selection from the source: `hashBKRD(key) & s.mask`. -/
def shardIdx (key : String) (mask : Nat) : Nat :=
  (and32 (hashBKRD (strBytes key)) (mask : Int)).toNat

/-! ### The two-tier (LRU-2) store -/

/-- `lru2Store` from the source: one `(tier1, tier2)` pair of slot caches
per shard.  `mask` is non-negative by construction (Go stores it in an
`int32`); `hasCb` mirrors `onEvicted != nil`.  Locks and the cleanup
ticker are concurrency apparatus with no sequential content. -/
structure lru2Store (V : Type) where
  caches : List (cache V × cache V)
  mask : Nat
  hasCb : Bool
  deriving DecidableEq, Repr

/-- `newLRU2Cache(opts)` from the source: default the options, round the
bucket count up to a power of two, create `mask + 1` shards. -/
def newLRU2Cache (V : Type) (bucketCount capPerBucket level2Cap : Nat) (hasCb : Bool) :
    lru2Store V :=
  let bc := if bucketCount = 0 then 16 else bucketCount
  let cap1 := if capPerBucket = 0 then 1024 else capPerBucket
  let cap2 := if level2Cap = 0 then 1024 else level2Cap
  let mask := maskOfNextPowOf2 bc
  { caches := List.replicate (mask + 1) (Create cap1, Create cap2)
    mask := mask
    hasCb := hasCb }

/-- The shard at index `i` (Go `s.caches[idx]`; the index is always in
range in the source since `idx = hash & mask ≤ mask`). -/
def scache {V : Type} (s : lru2Store V) (i : Nat) : cache V × cache V :=
  s.caches.getD i (Create 0, Create 0)

/-- Replace the shard at index `i`. -/
def setShard {V : Type} (s : lru2Store V) (i : Nat) (pr : cache V × cache V) : lru2Store V :=
  { s with caches := s.caches.set i pr }

/-- `lru2Store._get(key, idx, level)` from the source, on tier 2: a
non-destructive `get` whose result is filtered — an entry that is deleted
(`expireAt <= 0`) or already expired is reported as not found, but the
recency bump performed by `cache.get` is kept either way. -/
def lru2Store.sget {V : Type} (c : cache V) (currentTime : Int) (key : String) :
    cache V × Option (node V) :=
  let r := cache.get c key
  match r.2 with
  | some nd => if nd.expireAt ≤ 0 ∨ currentTime ≥ nd.expireAt then (r.1, none) else (r.1, some nd)
  | none => (r.1, none)

/-- `lru2Store.delete(key, idx)` from the source: `del` on both tiers of
shard `idx`; the callback fires at most once, preferring the tier-1 node's
value when it is non-nil. -/
def lru2Store.sdelete {V : Type} (s : lru2Store V) (idx : Nat) (key : String) :
    lru2Store V × List (String × Option V) × Bool :=
  let pr := scache s idx
  let r1 := cache.del pr.1 key
  let r2 := cache.del pr.2 key
  let deleted := r1.2.1.isSome || r2.2.1.isSome
  let evs :=
    if s.hasCb ∧ deleted = true then
      match r1.2.1 with
      | some n1 =>
        match n1.v with
        | some v1 => [(key, some v1)]
        | none =>
          match r2.2.1 with
          | some n2 => match n2.v with
            | some v2 => [(key, some v2)]
            | none => []
          | none => []
      | none =>
        match r2.2.1 with
        | some n2 => match n2.v with
          | some v2 => [(key, some v2)]
          | none => []
        | none => []
    else []
  (setShard s idx (r1.1, r2.1), evs, deleted)

/-- `lru2Store.Get(key)` from the source.  Tier 1 is probed destructively
with `del`; a live unexpired hit is promoted into tier 2 with its original
expiry.  Otherwise tier 2 is probed through `_get`.  Returns the new
store, the callback invocations, and Go's `(Value, bool)` pair.  The two
`Now()` readings of one call are modelled by the single `currentTime`. -/
def lru2Store.Get {V : Type} (s : lru2Store V) (currentTime : Int) (key : String) :
    lru2Store V × List (String × Option V) × Option V × Bool :=
  let idx := shardIdx key s.mask
  let pr := scache s idx
  let r1 := cache.del pr.1 key
  match r1.2.1 with
  | some n1 =>
    if r1.2.2 > 0 ∧ currentTime ≥ r1.2.2 then
      let s1 := setShard s idx (r1.1, pr.2)
      let r := lru2Store.sdelete s1 idx key
      (r.1, r.2.1, none, false)
    else
      let rp := cache.put pr.2 key n1.v r1.2.2 s.hasCb
      (setShard s idx (r1.1, rp.1), rp.2.1, n1.v, true)
  | none =>
    let r2 := lru2Store.sget pr.2 currentTime key
    match r2.2 with
    | some n2 =>
      if n2.expireAt > 0 ∧ currentTime ≥ n2.expireAt then
        let s1 := setShard s idx (r1.1, r2.1)
        let r := lru2Store.sdelete s1 idx key
        (r.1, r.2.1, none, false)
      else
        (setShard s idx (r1.1, r2.1), [], n2.v, true)
    | none => (setShard s idx (r1.1, r2.1), [], none, false)

/-- `lru2Store.SetWithExpiration(key, value, expiration)` from the source:
`expireAt = Now() + expiration` for a positive ttl, else the tombstone 0;
the write always lands in tier 1 of the key's shard.  `expiration` is the
ttl in nanoseconds (Go `time.Duration`). -/
def lru2Store.SetWithExpiration {V : Type} (s : lru2Store V) (currentTime : Int) (key : String)
    (value : Option V) (expiration : Int) : lru2Store V × List (String × Option V) :=
  let expireAt := if expiration > 0 then currentTime + expiration else 0
  let idx := shardIdx key s.mask
  let pr := scache s idx
  let rp := cache.put pr.1 key value expireAt s.hasCb
  (setShard s idx (rp.1, pr.2), rp.2.1)

/-- `lru2Store.Set(key, value)` from the source: delegates to
`SetWithExpiration` with the literal `1e7` (10^7 nanoseconds). -/
def lru2Store.Set {V : Type} (s : lru2Store V) (currentTime : Int) (key : String)
    (value : Option V) : lru2Store V × List (String × Option V) :=
  lru2Store.SetWithExpiration s currentTime key value 10000000

/-- `lru2Store.Delete(key)` from the source. -/
def lru2Store.Delete {V : Type} (s : lru2Store V) (key : String) :
    lru2Store V × List (String × Option V) × Bool :=
  lru2Store.sdelete s (shardIdx key s.mask) key

/-! ### The single-tier byte-budgeted LRU engine (`store/lru.go`) -/

/-- Size report of a stored value, Go's `Value.Len() int`. -/
class GoValue (V : Type) where
  len : V → Int

/-- `lruCache` from `store/lru.go`.  `lst` is the `container/list` list,
front first (most recently used); the `items` map is the same collection
keyed by name, so it is represented by lookup in `lst`.  `expires` maps
keys to absolute expiry times. -/
structure lruCache (V : Type) where
  lst : List (String × V)
  expires : List (String × Int)
  maxBytes : Int
  usedBytes : Int
  deriving DecidableEq, Repr

/-- `newLRUCache`: the constructor body is absent from the sources
(`src/unnamed/part_001` breaks off inside it), but every field start is
fixed by the struct: empty list, empty maps, zero used bytes. -/
def newLRUCache (V : Type) (maxBytes : Int) : lruCache V :=
  { lst := [], expires := [], maxBytes := maxBytes, usedBytes := 0 }

/-- Lookup in the `items` map. -/
def lruCache.find {V : Type} (c : lruCache V) (key : String) : Option V :=
  (c.lst.find? (fun pr => pr.1 == key)).map Prod.snd

/-- `lruCache.removeElement` from the source: drop the element, erase both
map entries, subtract `len(key) + value.Len()` bytes, fire the callback. -/
def lruCache.removeElement {V : Type} [GoValue V] (c : lruCache V) (key : String) (v : V) :
    lruCache V × List (String × V) :=
  ({ c with lst := c.lst.eraseP (fun pr => pr.1 == key)
            expires := herase c.expires key
            usedBytes := c.usedBytes - ((key.utf8ByteSize : Int) + GoValue.len v) },
   [(key, v)])

/-- First phase of `lruCache.evict`: scan the expiry map and remove every
expired entry.  Go iterates the map in unspecified order; the model uses
the stored order (no claim depends on the order). -/
def lruCache.evictExpired {V : Type} [GoValue V] (c : lruCache V) (now : Int) :
    lruCache V × List (String × V) :=
  go c.expires c []
where
  go : List (String × Int) → lruCache V → List (String × V) → lruCache V × List (String × V)
    | [], c, acc => (c, acc)
    | (key, expTime) :: rest, c, acc =>
      if now > expTime then
        match c.find key with
        | some v =>
          let r := c.removeElement key v
          go rest r.1 (acc ++ r.2)
        | none => go rest c acc
      else go rest c acc

/-- Second phase of `lruCache.evict`, translated write for write: while the
budget is exceeded and the list is non-empty, the loop takes `list.Back()`
(unused beyond a nil check) and removes `list.Front()` — the most recently
used element.  Each pass removes one element, so the loop runs at most
`c.lst.length` times; the fuel makes that termination explicit. -/
def lruCache.evictBytes {V : Type} [GoValue V] : Nat → lruCache V → lruCache V × List (String × V)
  | 0, c => (c, [])
  | fuel + 1, c =>
    if c.maxBytes > 0 ∧ c.usedBytes > c.maxBytes ∧ c.lst.length > 0 then
      match c.lst with
      | [] => (c, [])
      | (k, v) :: _ =>
        let r := c.removeElement k v
        let r2 := lruCache.evictBytes fuel r.1
        (r2.1, r.2 ++ r2.2)
    else (c, [])

/-- `lruCache.evict` from the source: expired entries first, then the byte
loop. -/
def lruCache.evict {V : Type} [GoValue V] (c : lruCache V) (now : Int) :
    lruCache V × List (String × V) :=
  let r1 := lruCache.evictExpired c now
  let r2 := lruCache.evictBytes r1.1.lst.length r1.1
  (r2.1, r1.2 ++ r2.2)

/-- `lruCache.Delete(key)` from the source. -/
def lruCache.Delete {V : Type} [GoValue V] (c : lruCache V) (key : String) :
    lruCache V × List (String × V) × Bool :=
  match c.find key with
  | some v =>
    let r := c.removeElement key v
    (r.1, r.2, true)
  | none => (c, [], false)

/-- `lruCache.SetWithExpiration(key, value, expiration)` from the source:
a nil value deletes; otherwise record or clear the expiry, then update in
place and move to front, or push a new entry and run `evict`. -/
def lruCache.SetWithExpiration {V : Type} [GoValue V] (c : lruCache V) (now : Int) (key : String)
    (value : Option V) (expiration : Int) : lruCache V × List (String × V) :=
  match value with
  | none =>
    let r := c.Delete key
    (r.1, r.2.1)
  | some v =>
    let c1 := if expiration > 0 then { c with expires := hinsert c.expires key (now + expiration) }
      else { c with expires := herase c.expires key }
    match c1.find key with
    | some old =>
      ({ c1 with usedBytes := c1.usedBytes + (GoValue.len v - GoValue.len old)
                 lst := (key, v) :: c1.lst.eraseP (fun pr => pr.1 == key) }, [])
    | none =>
      let c2 : lruCache V :=
        { c1 with lst := (key, v) :: c1.lst
                  usedBytes := c1.usedBytes + ((key.utf8ByteSize : Int) + GoValue.len v) }
      c2.evict now

/-- `lruCache.Set(key, value)` from the source: no expiry. -/
def lruCache.Set {V : Type} [GoValue V] (c : lruCache V) (now : Int) (key : String)
    (value : Option V) : lruCache V × List (String × V) :=
  c.SetWithExpiration now key value 0

/-! ### The approximate clock (`Now` and the background `init` loop) -/

/-- Nanoseconds per microsecond, Go's `time.Microsecond`. -/
def microsecond : Int := 1000

/-- Nanoseconds per millisecond, Go's `time.Millisecond`. -/
def millisecond : Int := 1000000

/-- The amount the background loop adds to the stored clock on each tick:
`int64(100*time.Microsecond)` in the source. -/
def clockTickIncrement : Int := 100 * microsecond

/-- The real duration the background loop sleeps before each tick:
`time.Sleep(time.Millisecond * 100)` in the source. -/
def clockTickInterval : Int := 100 * millisecond

/-- Stored clock value after `k` interpolation ticks of one cycle that
started from the wall-clock sample `sample` (the loop performs 9 such
ticks per cycle).  `Now()` returns exactly this stored value. -/
def clockAfterTicks (sample : Int) (k : Nat) : Int := sample + k * clockTickIncrement

/-- True wall-clock time after `k` ticks of the same cycle: each tick
follows a 100ms sleep. -/
def wallAfterTicks (sample : Int) (k : Nat) : Int := sample + k * clockTickInterval

/-! ### Well-formedness of one tier

The facts used as hypotheses of the general theorems: every index the key
map hands out is a valid, occupied slot whose entry carries that key back,
and in a full tier the tail sentinel designates an occupied slot.  Every
tier reachable from `Create` through the operations above satisfies this
(the concrete witnesses below check it by evaluation). -/
def WF {V : Type} (c : cache V) : Prop :=
  c.last ≤ c.m.length ∧
  (∀ pr ∈ c.hmap, 1 ≤ pr.2 ∧ pr.2 ≤ c.last) ∧
  (∀ pr ∈ c.hmap, (mget c.m (pr.2 - 1)).k = pr.1) ∧
  (c.last = c.m.length → 1 ≤ (dget c.dlnk 0).2 ∧ (dget c.dlnk 0).2 ≤ c.last)

instance WF.instDecidable {V : Type} (c : cache V) : Decidable (WF c) := by
  unfold WF
  infer_instance

/-- The bit-smearing branch of `maskOfNextPowOf2`, named so the theorems
can speak about it. -/
def smear16 (n : Nat) : Nat :=
  let c1 := n ||| n >>> 1
  let c2 := c1 ||| c1 >>> 2
  let c3 := c2 ||| c2 >>> 4
  c3 ||| c3 >>> 8

/-- The spec's `next_power_of_two(n)`: the least power of two that is at
least `n` (for `n ≥ 1`), written through `Nat.size`.  The accompanying
theorem proves both the power-of-two shape and the minimality, so this
definition is pinned to the spec's words. -/
def nextPowOf2Spec (n : Nat) : Nat := 2 ^ (n - 1).size

/-! ### Concrete scenario states

The states the counterexample and scenario theorems evaluate.  All of
them run the translated operations on small stores. -/

/-- C5: bucket count 1, tier-1 capacity 2, tier-2 capacity 2, callback
configured; values are plain naturals. -/
def c5s0 : lru2Store Nat := newLRU2Cache Nat 1 2 2 true

/-- C5: `Set(a,1)` at clock 0. -/
def c5r1 : lru2Store Nat × List (String × Option Nat) := lru2Store.Set c5s0 0 "a" (some 1)

/-- C5: then `Set(b,2)`. -/
def c5r2 : lru2Store Nat × List (String × Option Nat) := lru2Store.Set c5r1.1 0 "b" (some 2)

/-- C5: then `Set(c,3)`. -/
def c5r3 : lru2Store Nat × List (String × Option Nat) := lru2Store.Set c5r2.1 0 "c" (some 3)

/-- C5: then `Get(b)`, still within the 10ms ttl of the plain `Set`. -/
def c5g : lru2Store Nat × List (String × Option Nat) × Option Nat × Bool :=
  lru2Store.Get c5r3.1 0 "b"

/-- C2: a store on which `SetWithExpiration("k", 7, 0)` was issued at
clock 0 — ttl 0 means "never expires" per the contract. -/
def c2r1 : lru2Store Nat × List (String × Option Nat) :=
  lru2Store.SetWithExpiration (newLRU2Cache Nat 1 2 2 true) 0 "k" (some 7) 0

/-- C3: `SetWithExpiration("k", 7, ttl 5ns)` at clock 0. -/
def c3r1 : lru2Store Nat × List (String × Option Nat) :=
  lru2Store.SetWithExpiration (newLRU2Cache Nat 1 2 2 true) 0 "k" (some 7) 5

/-- C3: `Get("k")` at clock 2, before expiry: promotes `k` into tier 2. -/
def c3g1 : lru2Store Nat × List (String × Option Nat) × Option Nat × Bool :=
  lru2Store.Get c3r1.1 2 "k"

/-- C3: `Get("k")` at clock 10, after expiry, now hitting tier 2. -/
def c3g2 : lru2Store Nat × List (String × Option Nat) × Option Nat × Bool :=
  lru2Store.Get c3g1.1 10 "k"

/-- C6: a fresh tier of capacity 1. -/
def c6c0 : cache Nat := Create 1

/-- C6: insert the first distinct live key. -/
def c6r1 : cache Nat × List (String × Option Nat) × Nat := cache.put c6c0 "k1" (some 1) 1 true

/-- C6: insert the second distinct live key (capacity + 1st extra). -/
def c6r2 : cache Nat × List (String × Option Nat) × Nat := cache.put c6r1.1 "k2" (some 2) 1 true

/-- A value that reports a fixed byte size, for the byte-budgeted engine. -/
structure Blob where
  sz : Int
  deriving DecidableEq, Repr

instance : GoValue Blob := ⟨Blob.sz⟩

/-- C4: a single-tier LRU with an 8-byte budget. -/
def c4c0 : lruCache Blob := newLRUCache Blob 8

/-- C4: `Set("a", 3 bytes)` — 4 bytes used, within budget. -/
def c4r1 : lruCache Blob × List (String × Blob) :=
  lruCache.SetWithExpiration c4c0 0 "a" (some ⟨3⟩) 0

/-- C4: `Set("b", 3 bytes)` — 8 bytes used, still within budget. -/
def c4r2 : lruCache Blob × List (String × Blob) :=
  lruCache.SetWithExpiration c4r1.1 0 "b" (some ⟨3⟩) 0

/-- C4: `Set("c", 3 bytes)` — 12 bytes used, eviction must run. -/
def c4r3 : lruCache Blob × List (String × Blob) :=
  lruCache.SetWithExpiration c4r2.1 0 "c" (some ⟨3⟩) 0

/-- C1 witness store: bucket count 1, capacities 2/2, then
`SetWithExpiration("k", 5, ttl 100)` at clock 0. -/
def c1w : lru2Store Nat × List (String × Option Nat) :=
  lru2Store.SetWithExpiration (newLRU2Cache Nat 1 2 2 true) 0 "k" (some 5) 100

/-- C7 witness store: `c1w` with a second key `"q"` that lives in tier 1
only. -/
def c7w : lru2Store Nat × List (String × Option Nat) :=
  lru2Store.SetWithExpiration c1w.1 0 "q" (some 9) 50

/-- C10 witness store: a fresh LRU-2 store with one shard. -/
def c10w : lru2Store Nat := newLRU2Cache Nat 1 2 2 true

/-! ### Supporting lemmas -/

theorem getD_set_general {α : Type} :
    ∀ (l : List α) (i j : Nat) (a d : α),
      (l.set i a).getD j d = if i = j ∧ i < l.length then a else l.getD j d := by
  intro l
  induction l with
  | nil => intro i j a d; simp
  | cons x t ih =>
    intro i j a d
    cases i with
    | zero =>
      cases j with
      | zero => simp
      | succ m => simp [List.getD]
    | succ n =>
      cases j with
      | zero => simp [List.getD]
      | succ m =>
        have := ih n m a d
        simp only [List.set, List.getD_cons_succ, List.length_cons, this]
        by_cases hnm : n = m <;> simp [hnm, Nat.succ_lt_succ_iff]

theorem mget_set_self {V : Type} (m : List (node V)) (i : Nat) (x : node V)
    (h : i < m.length) : mget (m.set i x) i = x := by
  simp [mget, getD_set_general, h]

theorem mget_set_ne {V : Type} (m : List (node V)) (i j : Nat) (x : node V)
    (h : i ≠ j) : mget (m.set i x) j = mget m j := by
  simp [mget, getD_set_general, h]

theorem hfind_mem {α : Type} :
    ∀ (h : List (String × α)) (key : String) (a : α),
      hfind h key = some a → (key, a) ∈ h := by
  intro h
  induction h with
  | nil => intro key a hx; simp [hfind] at hx
  | cons pr t ih =>
    intro key a hx
    by_cases hk : pr.1 = key
    · simp [hfind, hk] at hx
      subst hx
      have hpr : (key, pr.2) = pr := by rw [← hk]
      rw [hpr]
      exact List.mem_cons_self _ _
    · simp [hfind, hk] at hx
      exact List.mem_cons_of_mem _ (ih key a hx)

theorem hfind_hinsert_self {α : Type} :
    ∀ (h : List (String × α)) (key : String) (a : α),
      hfind (hinsert h key a) key = some a := by
  intro h
  induction h with
  | nil => intro key a; simp [hinsert, hfind]
  | cons pr t ih =>
    intro key a
    by_cases hk : pr.1 = key
    · simp [hinsert, hfind, hk]
    · simp [hinsert, hfind, hk, ih]

theorem adjust_m {V : Type} (c : cache V) (i f t : Nat) : (c.adjust i f t).m = c.m := by
  unfold cache.adjust
  split
  · rfl
  · dsimp only
    split <;> rfl

theorem adjust_hmap {V : Type} (c : cache V) (i f t : Nat) :
    (c.adjust i f t).hmap = c.hmap := by
  unfold cache.adjust
  split
  · rfl
  · dsimp only
    split <;> rfl

theorem adjust_last {V : Type} (c : cache V) (i f t : Nat) :
    (c.adjust i f t).last = c.last := by
  unfold cache.adjust
  split
  · rfl
  · dsimp only
    split <;> rfl

theorem liveB_adjust {V : Type} (c : cache V) (i f t : Nat) (key : String) :
    (c.adjust i f t).liveB key = c.liveB key := by
  simp [cache.liveB, adjust_m, adjust_hmap]

theorem put_live {V : Type} (c : cache V) (key : String) (val : Option V) (e : Int)
    (cb : Bool) (hwf : WF c) :
    ∃ i, i - 1 < (c.put key val e cb).1.m.length ∧
      hfind (c.put key val e cb).1.hmap key = some i ∧
      mget (c.put key val e cb).1.m (i - 1) = ⟨key, val, e⟩ := by
  obtain ⟨hlen, hrange, hbij, htail⟩ := hwf
  cases hh : hfind c.hmap key with
  | some idx =>
    have hmem := hfind_mem c.hmap key idx hh
    have hr := hrange _ hmem
    have hk := hbij _ hmem
    have hlt : idx - 1 < c.m.length := by omega
    refine ⟨idx, ?_, ?_, ?_⟩
    · simp [cache.put, hh, adjust_m, hlt]
    · simp [cache.put, hh, adjust_hmap]
    · simp only [cache.put, hh, adjust_m]
      rw [mget_set_self _ _ _ (by simpa using hlt)]
      rw [show ({ mget c.m (idx - 1) with v := val, expireAt := e } : node V) =
        ⟨(mget c.m (idx - 1)).k, val, e⟩ from rfl, hk]
  | none =>
    by_cases hfull : c.last = c.m.length
    · have ht := htail hfull
      have hlt : (dget c.dlnk 0).2 - 1 < c.m.length := by omega
      refine ⟨(dget c.dlnk 0).2, ?_, ?_, ?_⟩
      · simp [cache.put, hh, hfull, adjust_m]
        omega
      · simp [cache.put, hh, hfull, adjust_hmap, hfind_hinsert_self]
      · simp only [cache.put, hh, hfull, if_pos, adjust_m]
        exact mget_set_self _ _ _ (by simpa using hlt)
    · have hlt : c.last < c.m.length := by omega
      refine ⟨c.last + 1, ?_, ?_, ?_⟩
      · simp [cache.put, hh, hfull]
        omega
      · simp [cache.put, hh, hfull, hfind_hinsert_self]
      · simp only [cache.put, hh, hfull, if_neg, if_false]
        exact mget_set_self _ _ _ (by simpa using hlt)

theorem del_of_found {V : Type} (c : cache V) (key : String) (i : Nat) (nd : node V)
    (hfound : hfind c.hmap key = some i) (hnd : mget c.m (i - 1) = nd)
    (hlive : nd.expireAt > 0) (hlt : i - 1 < c.m.length) :
    c.del key =
      (cache.adjust { c with m := c.m.set (i - 1) { nd with expireAt := 0 } } i Head Tail,
       some { nd with expireAt := 0 }, nd.expireAt) := by
  simp only [cache.del, hfound, hnd, hlive, if_pos]
  rw [mget_set_self _ _ _ (by simpa using hlt)]

theorem del_of_not_live {V : Type} (c : cache V) (key : String)
    (h : c.liveB key = false) : c.del key = (c, none, 0) := by
  cases hh : hfind c.hmap key with
  | some idx =>
    have : ¬ (mget c.m (idx - 1)).expireAt > 0 := by
      simp [cache.liveB, hh] at h
      omega
    simp [cache.del, hh, this]
  | none => simp [cache.del, hh]

theorem liveB_del {V : Type} (c : cache V) (key : String) (hwf : WF c) :
    ((c.del key).1).liveB key = false := by
  obtain ⟨hlen, hrange, hbij, htail⟩ := hwf
  cases hh : hfind c.hmap key with
  | some idx =>
    by_cases hl : (mget c.m (idx - 1)).expireAt > 0
    · have hmem := hfind_mem c.hmap key idx hh
      have hr := hrange _ hmem
      have hlt : idx - 1 < c.m.length := by omega
      simp only [cache.del, hh, hl, if_pos]
      rw [liveB_adjust]
      simp only [cache.liveB, hh]
      rw [mget_set_self _ _ _ (by simpa using hlt)]
      simp
    · simp [cache.del, hh, hl, cache.liveB]
  | none => simp [cache.del, hh, cache.liveB]

theorem scache_setShard {V : Type} (s : lru2Store V) (i j : Nat) (pr : cache V × cache V) :
    scache (setShard s i pr) j = if i = j ∧ i < s.caches.length then pr else scache s j :=
  getD_set_general s.caches i j pr (Create 0, Create 0)

theorem testBit_or_shift (m w i : Nat) :
    (m ||| m >>> w).testBit i = (m.testBit i || m.testBit (i + w)) := by
  rw [Nat.testBit_lor, Nat.testBit_shiftRight, Nat.add_comm w i]

theorem or_shift_char (m n w W : Nat) (hW : W = 2 * w)
    (hm : ∀ j, m.testBit j = true ↔ ∃ d, d < w ∧ n.testBit (j + d) = true) :
    ∀ j, (m ||| m >>> w).testBit j = true ↔ ∃ d, d < W ∧ n.testBit (j + d) = true := by
  subst hW
  intro j
  rw [testBit_or_shift, Bool.or_eq_true, hm j, hm (j + w)]
  constructor
  · rintro (⟨d, hd, hb⟩ | ⟨d, hd, hb⟩)
    · exact ⟨d, by omega, hb⟩
    · refine ⟨w + d, by omega, ?_⟩
      rwa [← Nat.add_assoc]
  · rintro ⟨d, hd, hb⟩
    by_cases hc : d < w
    · exact Or.inl ⟨d, hc, hb⟩
    · refine Or.inr ⟨d - w, by omega, ?_⟩
      have he : j + w + (d - w) = j + d := by omega
      rwa [he]

theorem smear16_testBit (n : Nat) :
    ∀ j, (smear16 n).testBit j = true ↔ ∃ d, d < 16 ∧ n.testBit (j + d) = true := by
  have h0 : ∀ j, n.testBit j = true ↔ ∃ d, d < 1 ∧ n.testBit (j + d) = true := by
    intro j
    constructor
    · intro h
      exact ⟨0, by omega, by simpa using h⟩
    · rintro ⟨d, hd, hb⟩
      have hd0 : d = 0 := by omega
      subst hd0
      simpa using hb
  have h1 := or_shift_char n n 1 2 (by norm_num) h0
  have h2 := or_shift_char _ n 2 4 (by norm_num) h1
  have h4 := or_shift_char _ n 4 8 (by norm_num) h2
  have h8 := or_shift_char _ n 8 16 (by norm_num) h4
  simpa only [smear16] using h8

theorem testBit_size_pred (n : Nat) (h : 1 ≤ n) : n.testBit (n.size - 1) = true := by
  have hpos : 0 < n.size := Nat.size_pos.mpr h
  have hle : 2 ^ (n.size - 1) ≤ n := Nat.lt_size.mp (by omega)
  have hlt : n < 2 ^ n.size := Nat.lt_size_self n
  rw [Nat.testBit_to_div_mod]
  have hdouble : 2 ^ n.size = 2 * 2 ^ (n.size - 1) := by
    rw [← Nat.pow_succ']
    congr 1
    omega
  have hdiv : n / 2 ^ (n.size - 1) = 1 := by
    have ha : 1 ≤ n / 2 ^ (n.size - 1) := (Nat.one_le_div_iff (Nat.two_pow_pos _)).mpr hle
    have hb : n / 2 ^ (n.size - 1) < 2 := by
      rw [Nat.div_lt_iff_lt_mul (Nat.two_pow_pos _)]
      omega
    omega
  simp [hdiv]

theorem size_sandwich (m k : Nat) (hle : 2 ^ k ≤ m) (hlt : m < 2 ^ (k + 1)) :
    m.size = k + 1 := by
  have ha : m.size ≤ k + 1 := Nat.size_le.mpr hlt
  have hb : k < m.size := Nat.lt_size.mpr hle
  omega

theorem size_two_pow_sub_one (k : Nat) : (2 ^ k - 1).size = k := by
  cases k with
  | zero => simp [Nat.size_eq_zero]
  | succ j =>
    apply size_sandwich
    · have := Nat.one_le_two_pow (n := j)
      have h2 : 2 ^ (j + 1) = 2 ^ j * 2 := Nat.pow_succ 2 j
      omega
    · have := Nat.two_pow_pos (w := j + 1)
      omega

theorem smear16_eq_two_pow_sub_one (n : Nat) (h1 : 1 ≤ n) (h2 : n < 2 ^ 16) :
    smear16 n = 2 ^ n.size - 1 := by
  apply Nat.eq_of_testBit_eq
  intro i
  rw [Nat.testBit_two_pow_sub_one]
  by_cases hi : i < n.size
  · have hsle : n.size ≤ 16 := Nat.size_le.mpr h2
    have hb : (smear16 n).testBit i = true := by
      refine (smear16_testBit n i).mpr ⟨n.size - 1 - i, by omega, ?_⟩
      have he : i + (n.size - 1 - i) = n.size - 1 := by omega
      rw [he]
      exact testBit_size_pred n h1
    simp [hb, hi]
  · have hall : ∀ d, n.testBit (i + d) = false := by
      intro d
      refine Nat.testBit_eq_false_of_lt (lt_of_lt_of_le (Nat.lt_size_self n) ?_)
      exact Nat.pow_le_pow_right (by norm_num) (by omega)
    have hfalse : (smear16 n).testBit i = false := by
      cases hc : (smear16 n).testBit i with
      | false => rfl
      | true =>
        obtain ⟨d, hd, hbd⟩ := (smear16_testBit n i).mp hc
        rw [hall d] at hbd
        exact Bool.noConfusion hbd
    simp [hfalse, hi]

theorem two_pow_land_pred (k : Nat) : 2 ^ k &&& (2 ^ k - 1) = 0 := by
  apply Nat.eq_of_testBit_eq
  intro i
  rw [Nat.testBit_land, Nat.testBit_two_pow, Nat.testBit_two_pow_sub_one, Nat.zero_testBit]
  by_cases h : k = i
  · subst h
    simp
  · simp [h]

theorem pow_of_land_pred_eq_zero (n : Nat) (h1 : 1 ≤ n) (hz : n &&& (n - 1) = 0) :
    n = 2 ^ (n.size - 1) := by
  by_contra hne
  have hpos : 0 < n.size := Nat.size_pos.mpr h1
  have hle : 2 ^ (n.size - 1) ≤ n := Nat.lt_size.mp (by omega)
  have hgt : 2 ^ (n.size - 1) < n := lt_of_le_of_ne hle (fun he => hne he.symm)
  have hone : 1 ≤ 2 ^ (n.size - 1) := Nat.one_le_two_pow
  have hsz : (n - 1).size = n.size := by
    have hlt : n < 2 ^ n.size := Nat.lt_size_self n
    have hs2 : n - 1 < 2 ^ (n.size - 1 + 1) := by
      have he : n.size - 1 + 1 = n.size := by omega
      rw [he]
      omega
    have := size_sandwich (n - 1) (n.size - 1) (by omega) hs2
    omega
  have hb1 : n.testBit (n.size - 1) = true := testBit_size_pred n h1
  have hb2 : (n - 1).testBit (n.size - 1) = true := by
    have := testBit_size_pred (n - 1) (by omega)
    rwa [hsz] at this
  have hand : (n &&& (n - 1)).testBit (n.size - 1) = true := by
    rw [Nat.testBit_land, hb1, hb2]
    rfl
  rw [hz, Nat.zero_testBit] at hand
  exact Bool.noConfusion hand

theorem mask_next_pow (n : Nat) (h1 : 1 ≤ n) (h2 : n ≤ 2 ^ 15) :
    maskOfNextPowOf2 n + 1 = nextPowOf2Spec n ∧
    n ≤ nextPowOf2Spec n ∧ nextPowOf2Spec n < 2 * n := by
  by_cases hp : 0 < n ∧ n &&& (n - 1) = 0
  · have hn := pow_of_land_pred_eq_zero n h1 hp.2
    have hmask : maskOfNextPowOf2 n = n - 1 := by
      simp [maskOfNextPowOf2, hp]
    have hsz : (n - 1).size = n.size - 1 := by
      conv_lhs => rw [hn]
      rw [size_two_pow_sub_one]
    have hnext : nextPowOf2Spec n = n := by
      rw [nextPowOf2Spec, hsz, ← hn]
    refine ⟨?_, ?_, ?_⟩
    · rw [hmask, hnext]
      omega
    · rw [hnext]
    · rw [hnext]
      omega
  · have hz : ¬ n &&& (n - 1) = 0 := fun hc => hp ⟨h1, hc⟩
    have hmask : maskOfNextPowOf2 n = smear16 n := by
      simp [maskOfNextPowOf2, smear16, hp]
    have hsm := smear16_eq_two_pow_sub_one n h1 (lt_of_le_of_lt h2 (by norm_num))
    have hpos : 0 < n.size := Nat.size_pos.mpr h1
    have hle : 2 ^ (n.size - 1) ≤ n := Nat.lt_size.mp (by omega)
    have hgt : 2 ^ (n.size - 1) < n := by
      rcases lt_or_eq_of_le hle with hcase | hcase
      · exact hcase
      · exfalso
        apply hz
        rw [← hcase]
        exact two_pow_land_pred _
    have hlt : n < 2 ^ n.size := Nat.lt_size_self n
    have hone : 1 ≤ 2 ^ (n.size - 1) := Nat.one_le_two_pow
    have hsz : (n - 1).size = n.size := by
      have hs2 : n - 1 < 2 ^ (n.size - 1 + 1) := by
        have he : n.size - 1 + 1 = n.size := by omega
        rw [he]
        omega
      have := size_sandwich (n - 1) (n.size - 1) (by omega) hs2
      omega
    have hnext : nextPowOf2Spec n = 2 ^ n.size := by
      rw [nextPowOf2Spec, hsz]
    have hdouble : 2 ^ n.size = 2 * 2 ^ (n.size - 1) := by
      rw [← Nat.pow_succ']
      congr 1
      omega
    refine ⟨?_, ?_, ?_⟩
    · rw [hmask, hsm, hnext]
      have := Nat.one_le_two_pow (n := n.size)
      omega
    · rw [hnext]
      omega
    · rw [hnext, hdouble]
      omega

theorem wrap32_bounds (x : Int) : -2 ^ 31 ≤ wrap32 x ∧ wrap32 x < 2 ^ 31 := by
  unfold wrap32
  have h1 : 0 ≤ (x + 2 ^ 31) % 2 ^ 32 := Int.emod_nonneg _ (by norm_num)
  have h2 : (x + 2 ^ 31) % 2 ^ 32 < 2 ^ 32 := Int.emod_lt_of_pos _ (by norm_num)
  constructor <;> omega

theorem hashBKRD_bounds (bs : List Nat) : -2 ^ 31 ≤ hashBKRD bs ∧ hashBKRD bs < 2 ^ 31 := by
  unfold hashBKRD
  have hgen : ∀ (l : List Nat) (acc : Int), -2 ^ 31 ≤ acc → acc < 2 ^ 31 →
      -2 ^ 31 ≤ l.foldl (fun hash b => wrap32 (hash * 131 + (b : Int))) acc ∧
      l.foldl (fun hash b => wrap32 (hash * 131 + (b : Int))) acc < 2 ^ 31 := by
    intro l
    induction l with
    | nil => intro acc ha hb; exact ⟨ha, hb⟩
    | cons b t ih =>
      intro acc ha hb
      have hw := wrap32_bounds (acc * 131 + (b : Int))
      exact ih _ hw.1 hw.2
  exact hgen bs 0 (by norm_num) (by norm_num)

theorem del_isSome {V : Type} (c : cache V) (key : String) :
    (c.del key).2.1.isSome = c.liveB key := by
  cases hh : hfind c.hmap key with
  | none => simp [cache.del, cache.liveB, hh]
  | some idx =>
    by_cases hl : (mget c.m (idx - 1)).expireAt > 0 <;>
      simp [cache.del, cache.liveB, hh, hl]

/-! ### The claims -/

/-- C5: on the LRU-2 engine with bucket count 1, tier-1 capacity 2, tier-2
capacity 2, and no ttl argument (the plain `Set` path): after
`Set(a,1); Set(b,2); Set(c,3)`, tier 1 holds exactly `{b, c}`, `a` was
evicted and the callback fired exactly once with `(a, 1)`; a following
`Get(b)` returns `(2, true)`, promotes `b` to tier 2, and leaves tier 1
holding `{c}` only. -/
theorem C5_concrete_scenario :
    (c5r1.2 = [] ∧ c5r2.2 = [] ∧ c5r3.2 = [("a", some 1)]) ∧
    ((scache c5r3.1 0).1.liveB "a" = false ∧ (scache c5r3.1 0).1.liveB "b" = true ∧
      (scache c5r3.1 0).1.liveB "c" = true ∧ (scache c5r3.1 0).1.liveCount = 2) ∧
    (c5g.2.2 = (some 2, true) ∧ c5g.2.1 = []) ∧
    ((scache c5g.1 0).2.liveB "b" = true ∧ (scache c5g.1 0).1.liveB "b" = false ∧
      (scache c5g.1 0).1.liveB "c" = true ∧ (scache c5g.1 0).1.liveCount = 1) := by
  decide

/-- C2: refuted on the code — an entry stored with `ttl <= 0` ("never
expires") is written with `expireAt = 0`, which every read path treats as
the deleted tombstone: the entry sits in tier 1 (`hfind` finds it, the
stored value is intact, no delete or eviction ever ran), yet `Get` returns
not-found at any time. -/
theorem C2_ttl_zero_invisible :
    c2r1.2 = [] ∧
    hfind (scache c2r1.1 0).1.hmap "k" = some 1 ∧
    mget (scache c2r1.1 0).1.m 0 = ⟨"k", some 7, 0⟩ ∧
    (lru2Store.Get c2r1.1 0 "k").2.2 = (none, false) ∧
    (lru2Store.Get c2r1.1 1000000 "k").2.2 = (none, false) := by
  decide

/-- C3: refuted on the code for the tier-2 case — a key promoted to tier 2
with expiry 5 and read at clock 10 is reported not-found, but `_get`
filters the expired entry before `Get`'s deletion branch can see it, so
nothing is deleted: the tier-2 entry stays live (`expireAt = 5` still set)
and no callback fires. -/
theorem C3_expired_tier2_left_in_place :
    c3g1.2.2 = (some 7, true) ∧
    (scache c3g1.1 0).2.liveB "k" = true ∧
    c3g2.2.2 = (none, false) ∧
    c3g2.2.1 = [] ∧
    (scache c3g2.1 0).2.liveB "k" = true ∧
    hfind (scache c3g2.1 0).2.hmap "k" = some 1 ∧
    (mget (scache c3g2.1 0).2.m 0).expireAt = 5 := by
  decide

/-- C4: refuted on the code — with an 8-byte budget and three 4-byte
entries `a`, `b`, `c` (inserted in that order), the byte-eviction loop of
`evict` removes `list.Front()`: the just-inserted, most recently used `c`
is evicted and the least recently used `a` survives, the opposite of the
claimed least-recently-used eviction. -/
theorem C4_byte_eviction_removes_front :
    c4r3.1.lst.map Prod.fst = ["b", "a"] ∧
    c4r3.2 = [("c", ⟨3⟩)] ∧
    c4r3.1.usedBytes = 8 ∧
    c4r3.1.maxBytes = 8 := by
  decide

/-- C6: refuted on the code at capacity 1 — inserting the second distinct
live key evicts the first (one correct callback), but the eviction's
move-to-head of the sole slot zeroes the tail sentinel: the tier still
holds one live entry while `dlnk[0][Tail] = 0`.  A third distinct insert
takes the full branch (`last = len m`, key absent) and Go evaluates
`c.m[c.dlnk[0][Tail]-1] = c.m[65535]`, an index-out-of-range panic, instead
of evicting the LRU slot. -/
theorem C6_capacity_one_tail_corruption :
    c6r1.2.1 = [] ∧
    c6r2.2.1 = [("k1", some 1)] ∧
    c6r2.1.last = 1 ∧
    c6r2.1.m.length = 1 ∧
    c6r2.1.liveB "k2" = true ∧
    c6r2.1.liveCount = 1 ∧
    (dget c6r2.1.dlnk 0).2 = 0 ∧
    hfind c6r2.1.hmap "k3" = none := by
  decide

/-- C9: refuted on the code — the background loop sleeps 100ms per tick
but adds `int64(100*time.Microsecond)` = 100000ns = 100µs, one thousandth
of the claimed 100ms sub-interval; after the 9 ticks of a cycle the stored
clock lags true wall time by 899.1ms, far beyond the claimed ~100ms
staleness bound. -/
theorem C9_clock_tick_increment_mismatch :
    clockTickIncrement = 100000 ∧
    clockTickInterval = 100000000 ∧
    clockTickIncrement * 1000 = clockTickInterval ∧
    (∀ sample : Int, wallAfterTicks sample 9 - clockAfterTicks sample 9 = 899100000) ∧
    (∀ sample : Int, clockTickInterval < wallAfterTicks sample 9 - clockAfterTicks sample 9) := by
  refine ⟨rfl, rfl, rfl, ?_, ?_⟩ <;>
    · intro sample
      simp only [wallAfterTicks, clockAfterTicks, clockTickInterval, clockTickIncrement,
        microsecond, millisecond]
      norm_num

/-- C8: `hashBKRD` folds each byte as `hash*131 + byte` in wrapping 32-bit
signed arithmetic (and, being a pure function of the bytes, is
deterministic); its value always lies in the `int32` range; for
`1 ≤ n ≤ 2^15`, `maskOfNextPowOf2 n` is `next_power_of_two(n) - 1`, where
`nextPowOf2Spec` is proved to be the least power of two `≥ n` by the
bracketing `n ≤ spec < 2n`; and the shard index `hash & mask` always lies
in `[0, mask]`, non-negative even for a negative hash. -/
theorem C8_hash_mask_shard :
    (∀ (bs : List Nat) (b : Nat),
        hashBKRD (bs ++ [b]) = wrap32 (hashBKRD bs * 131 + (b : Int))) ∧
    (∀ bs : List Nat, -2 ^ 31 ≤ hashBKRD bs ∧ hashBKRD bs < 2 ^ 31) ∧
    (∀ n : Nat, 1 ≤ n → n ≤ 2 ^ 15 →
        maskOfNextPowOf2 n + 1 = nextPowOf2Spec n ∧
        n ≤ nextPowOf2Spec n ∧ nextPowOf2Spec n < 2 * n) ∧
    (∀ (h m : Int), 0 ≤ m → m < 2 ^ 32 → 0 ≤ and32 h m ∧ and32 h m ≤ m) := by
  refine ⟨?_, hashBKRD_bounds, mask_next_pow, ?_⟩
  · intro bs b
    simp [hashBKRD, List.foldl_append]
  · intro h m hm0 hm32
    unfold and32
    constructor
    · exact Int.natCast_nonneg _
    · have h1 : (h % 2 ^ 32).toNat &&& (m % 2 ^ 32).toNat ≤ (m % 2 ^ 32).toNat :=
        Nat.and_le_right
      have h2 : m % 2 ^ 32 = m := Int.emod_eq_of_lt hm0 hm32
      calc ((((h % 2 ^ 32).toNat &&& (m % 2 ^ 32).toNat : Nat)) : Int)
          ≤ ((m % 2 ^ 32).toNat : Int) := by exact_mod_cast h1
        _ = m := by rw [h2, Int.toNat_of_nonneg hm0]

/-- C8 witness: the mask and shard-index parts of `C8_hash_mask_shard`
instantiated at `n = 5` and `hash = -7`, `mask = 15`. -/
theorem C8_hash_mask_shard_witness :
    ((1 ≤ 5 ∧ 5 ≤ 2 ^ 15) ∧
      maskOfNextPowOf2 5 + 1 = nextPowOf2Spec 5 ∧
      5 ≤ nextPowOf2Spec 5 ∧ nextPowOf2Spec 5 < 2 * 5) ∧
    ((0 ≤ (15 : Int) ∧ (15 : Int) < 2 ^ 32) ∧
      0 ≤ and32 (-7) 15 ∧ and32 (-7) 15 ≤ 15) :=
  ⟨⟨⟨by norm_num, by norm_num⟩, C8_hash_mask_shard.2.2.1 5 (by norm_num) (by norm_num)⟩,
   ⟨⟨by norm_num, by norm_num⟩, C8_hash_mask_shard.2.2.2 (-7) 15 (by norm_num) (by norm_num)⟩⟩

/-- C1: on the LRU-2 engine, a tier-1 entry found live and unexpired by
`Get` is promoted: `Get` returns its value with `true`, the key is no
longer live in tier 1 afterwards, and tier 2 holds the key with the same
value and original expiry.  Consequently (last two conjuncts): any
`SetWithExpiration` leaves every shard's tier 2 untouched, and on any
store whose tier 2 holds the promoted entry while the key is not live in
tier 1, a `Get` within the ttl still returns the value from tier 2. -/
theorem C1_promotion {V : Type} (s : lru2Store V) (t : Int) (key : String)
    (i : Nat) (nd : node V)
    (hidx : shardIdx key s.mask < s.caches.length)
    (hwf2 : WF (scache s (shardIdx key s.mask)).2)
    (hfound : hfind (scache s (shardIdx key s.mask)).1.hmap key = some i)
    (hlt : i - 1 < (scache s (shardIdx key s.mask)).1.m.length)
    (hnd : mget (scache s (shardIdx key s.mask)).1.m (i - 1) = nd)
    (hlive : nd.expireAt > 0) (hvalid : t < nd.expireAt) :
    ((lru2Store.Get s t key).2.2 = (nd.v, true)) ∧
    ((scache (lru2Store.Get s t key).1 (shardIdx key s.mask)).1.liveB key = false) ∧
    (∃ j, hfind (scache (lru2Store.Get s t key).1 (shardIdx key s.mask)).2.hmap key = some j ∧
        mget (scache (lru2Store.Get s t key).1 (shardIdx key s.mask)).2.m (j - 1) =
          ⟨key, nd.v, nd.expireAt⟩) ∧
    (∀ (s2 : lru2Store V) (t2 e2 : Int) (k2 : String) (v2 : Option V) (j : Nat),
        (scache (lru2Store.SetWithExpiration s2 t2 k2 v2 e2).1 j).2 = (scache s2 j).2) ∧
    (∀ (s3 : lru2Store V) (t3 : Int) (j : Nat),
        (scache s3 (shardIdx key s3.mask)).1.liveB key = false →
        hfind (scache s3 (shardIdx key s3.mask)).2.hmap key = some j →
        mget (scache s3 (shardIdx key s3.mask)).2.m (j - 1) = ⟨key, nd.v, nd.expireAt⟩ →
        t3 < nd.expireAt →
        (lru2Store.Get s3 t3 key).2.2 = (nd.v, true)) := by
  have hdel := del_of_found (scache s (shardIdx key s.mask)).1 key i nd hfound hnd hlive hlt
  have hcond : ¬ (nd.expireAt > 0 ∧ t ≥ nd.expireAt) := by omega
  have hget : lru2Store.Get s t key =
      (setShard s (shardIdx key s.mask)
        (((scache s (shardIdx key s.mask)).1.del key).1,
          ((scache s (shardIdx key s.mask)).2.put key nd.v nd.expireAt s.hasCb).1),
       ((scache s (shardIdx key s.mask)).2.put key nd.v nd.expireAt s.hasCb).2.1, nd.v, true) := by
    unfold lru2Store.Get
    simp only [hdel, hcond, if_false]
  refine ⟨?_, ?_, ?_, ?_, ?_⟩
  · rw [hget]
  · rw [hget, scache_setShard]
    simp only [hidx, and_true, if_true]
    simp only [hdel]
    rw [liveB_adjust]
    simp only [cache.liveB, hfound]
    rw [mget_set_self _ _ _ (by simpa using hlt)]
    simp
  · rw [hget, scache_setShard]
    simp only [hidx, and_true, if_true]
    obtain ⟨j, hjlt, hjf, hjm⟩ := put_live (scache s (shardIdx key s.mask)).2 key nd.v nd.expireAt s.hasCb hwf2
    exact ⟨j, hjf, hjm⟩
  · intro s2 t2 e2 k2 v2 j
    unfold lru2Store.SetWithExpiration
    dsimp only
    rw [scache_setShard]
    by_cases hc : shardIdx k2 s2.mask = j ∧ shardIdx k2 s2.mask < s2.caches.length
    · rw [if_pos hc]
      rw [← hc.1]
    · rw [if_neg hc]
  · intro s3 t3 j h3live h3f h3m h3t
    have h3del : ((scache s3 (shardIdx key s3.mask)).1.del key) =
        ((scache s3 (shardIdx key s3.mask)).1, none, 0) :=
      del_of_not_live _ _ h3live
    have h3get : lru2Store.sget (scache s3 (shardIdx key s3.mask)).2 t3 key =
        ((cache.adjust (scache s3 (shardIdx key s3.mask)).2 j Tail Head),
          some (⟨key, nd.v, nd.expireAt⟩ : node V)) := by
      unfold lru2Store.sget cache.get
      simp only [h3f, h3m]
      have : ¬ ((⟨key, nd.v, nd.expireAt⟩ : node V).expireAt ≤ 0 ∨
          t3 ≥ (⟨key, nd.v, nd.expireAt⟩ : node V).expireAt) := by
        dsimp only
        omega
      simp only [this, if_false]
    have hcond3 : ¬ ((⟨key, nd.v, nd.expireAt⟩ : node V).expireAt > 0 ∧
        t3 ≥ (⟨key, nd.v, nd.expireAt⟩ : node V).expireAt) := by
      dsimp only
      omega
    unfold lru2Store.Get
    simp only [h3del, h3get, hcond3, if_false]

/-- C7: `Delete` on the LRU-2 engine reports `true` exactly when the key
was live in either tier of its shard, leaves the key live in neither
tier, fires the eviction callback at most once, and — when the callback
is configured and tier 1 held a live entry with a non-nil value — fires
it with the tier-1 value. -/
theorem C7_delete_both_tiers {V : Type} (s : lru2Store V) (key : String)
    (hidx : shardIdx key s.mask < s.caches.length)
    (hwf1 : WF (scache s (shardIdx key s.mask)).1)
    (hwf2 : WF (scache s (shardIdx key s.mask)).2) :
    ((lru2Store.Delete s key).2.2 =
      ((scache s (shardIdx key s.mask)).1.liveB key ||
        (scache s (shardIdx key s.mask)).2.liveB key)) ∧
    ((scache (lru2Store.Delete s key).1 (shardIdx key s.mask)).1.liveB key = false) ∧
    ((scache (lru2Store.Delete s key).1 (shardIdx key s.mask)).2.liveB key = false) ∧
    ((lru2Store.Delete s key).2.1.length ≤ 1) ∧
    (∀ (i : Nat) (nd : node V), s.hasCb = true →
        hfind (scache s (shardIdx key s.mask)).1.hmap key = some i →
        mget (scache s (shardIdx key s.mask)).1.m (i - 1) = nd →
        nd.expireAt > 0 → nd.v.isSome = true →
        (lru2Store.Delete s key).2.1 = [(key, nd.v)]) := by
  refine ⟨?_, ?_, ?_, ?_, ?_⟩
  · unfold lru2Store.Delete lru2Store.sdelete
    dsimp only
    rw [del_isSome, del_isSome]
  · unfold lru2Store.Delete lru2Store.sdelete
    dsimp only
    rw [scache_setShard]
    simp only [hidx, and_true, if_true]
    exact liveB_del _ _ hwf1
  · unfold lru2Store.Delete lru2Store.sdelete
    dsimp only
    rw [scache_setShard]
    simp only [hidx, and_true, if_true]
    exact liveB_del _ _ hwf2
  · unfold lru2Store.Delete lru2Store.sdelete
    dsimp only
    split
    · split <;> (try split) <;> (try split) <;> (try split) <;> simp
    · simp
  · intro i nd hcb hf hm hexp hv
    have hlt : i - 1 < (scache s (shardIdx key s.mask)).1.m.length := by
      obtain ⟨hlen, hrange, hbij, htail⟩ := hwf1
      have := hrange _ (hfind_mem _ _ _ hf)
      omega
    have hdel1 := del_of_found (scache s (shardIdx key s.mask)).1 key i nd hf hm hexp hlt
    obtain ⟨v1, hv1⟩ := Option.isSome_iff_exists.mp hv
    unfold lru2Store.Delete lru2Store.sdelete
    dsimp only
    rw [hdel1]
    simp [hcb, hv1]

/-- C10: the plain `Set` of the LRU-2 engine is literally
`SetWithExpiration` with the fixed ttl `1e7` nanoseconds (10ms): the
stored tier-1 entry carries `expireAt = now + 10^7`, and a `Get` at or
after that instant reports not-found, so entries written via `Set` expire
about 10ms after insertion instead of living indefinitely. -/
theorem C10_set_ten_ms_ttl {V : Type} (s : lru2Store V) (t tp : Int) (key : String)
    (v : Option V)
    (hidx : shardIdx key s.mask < s.caches.length)
    (hwf1 : WF (scache s (shardIdx key s.mask)).1)
    (ht : 0 ≤ t) (htp : t + 10000000 ≤ tp) :
    (lru2Store.Set s t key v = lru2Store.SetWithExpiration s t key v 10000000) ∧
    (∃ i, hfind (scache (lru2Store.Set s t key v).1 (shardIdx key s.mask)).1.hmap key = some i ∧
        mget (scache (lru2Store.Set s t key v).1 (shardIdx key s.mask)).1.m (i - 1) =
          ⟨key, v, t + 10000000⟩) ∧
    ((lru2Store.Get (lru2Store.Set s t key v).1 tp key).2.2 = (none, false)) := by
  have hset : (lru2Store.Set s t key v).1 =
      setShard s (shardIdx key s.mask)
        (((scache s (shardIdx key s.mask)).1.put key v (t + 10000000) s.hasCb).1,
          (scache s (shardIdx key s.mask)).2) := by
    unfold lru2Store.Set lru2Store.SetWithExpiration
    norm_num
  have hsc : scache (lru2Store.Set s t key v).1 (shardIdx key s.mask) =
      (((scache s (shardIdx key s.mask)).1.put key v (t + 10000000) s.hasCb).1,
        (scache s (shardIdx key s.mask)).2) := by
    rw [hset, scache_setShard]
    simp [hidx]
  obtain ⟨i, hilt, hif, him⟩ :=
    put_live (scache s (shardIdx key s.mask)).1 key v (t + 10000000) s.hasCb hwf1
  have hmask : (lru2Store.Set s t key v).1.mask = s.mask := by
    rw [hset]
    rfl
  have hcaches : (lru2Store.Set s t key v).1.caches.length = s.caches.length := by
    rw [hset]
    simp [setShard]
  refine ⟨rfl, ?_, ?_⟩
  · exact ⟨i, by rw [hsc]; exact hif, by rw [hsc]; exact him⟩
  · have hfound2 : hfind (scache (lru2Store.Set s t key v).1
        (shardIdx key (lru2Store.Set s t key v).1.mask)).1.hmap key = some i := by
      rw [hmask, hsc]
      exact hif
    have hm2 : mget (scache (lru2Store.Set s t key v).1
        (shardIdx key (lru2Store.Set s t key v).1.mask)).1.m (i - 1) =
        ⟨key, v, t + 10000000⟩ := by
      rw [hmask, hsc]
      exact him
    have hlt2 : i - 1 < (scache (lru2Store.Set s t key v).1
        (shardIdx key (lru2Store.Set s t key v).1.mask)).1.m.length := by
      rw [hmask, hsc]
      exact hilt
    have hdel2 := del_of_found _ key i ⟨key, v, t + 10000000⟩ hfound2 hm2 (by dsimp only; omega) hlt2
    have hcond2 : ((⟨key, v, t + 10000000⟩ : node V).expireAt > 0 ∧
        tp ≥ (⟨key, v, t + 10000000⟩ : node V).expireAt) := by
      dsimp only
      omega
    unfold lru2Store.Get
    simp only [hdel2, hcond2, and_self, if_true]

/-- C1 witness: the promotion theorem applied to the concrete store
`c1w.1` (key `"k"`, value 5, expiry 100, read at clock 10). -/
theorem C1_promotion_witness :
    (shardIdx "k" c1w.1.mask < c1w.1.caches.length ∧
      WF (scache c1w.1 (shardIdx "k" c1w.1.mask)).2 ∧
      hfind (scache c1w.1 (shardIdx "k" c1w.1.mask)).1.hmap "k" = some 1 ∧
      1 - 1 < (scache c1w.1 (shardIdx "k" c1w.1.mask)).1.m.length ∧
      mget (scache c1w.1 (shardIdx "k" c1w.1.mask)).1.m (1 - 1) = ⟨"k", some 5, 100⟩ ∧
      (⟨"k", some 5, 100⟩ : node Nat).expireAt > 0 ∧
      (10 : Int) < (⟨"k", some 5, 100⟩ : node Nat).expireAt) ∧
    ((lru2Store.Get c1w.1 10 "k").2.2 = (some 5, true) ∧
      (scache (lru2Store.Get c1w.1 10 "k").1 (shardIdx "k" c1w.1.mask)).1.liveB "k" = false) :=
  ⟨⟨by decide, by decide, by decide, by decide, by decide, by decide, by decide⟩,
   ⟨(C1_promotion c1w.1 10 "k" 1 ⟨"k", some 5, 100⟩ (by decide) (by decide) (by decide)
       (by decide) (by decide) (by decide) (by decide)).1,
    (C1_promotion c1w.1 10 "k" 1 ⟨"k", some 5, 100⟩ (by decide) (by decide) (by decide)
       (by decide) (by decide) (by decide) (by decide)).2.1⟩⟩

/-- C7 witness: the delete theorem applied to the concrete store `c7w.1`
at key `"k"`. -/
theorem C7_delete_both_tiers_witness :
    (shardIdx "k" c7w.1.mask < c7w.1.caches.length ∧
      WF (scache c7w.1 (shardIdx "k" c7w.1.mask)).1 ∧
      WF (scache c7w.1 (shardIdx "k" c7w.1.mask)).2) ∧
    ((lru2Store.Delete c7w.1 "k").2.2 =
        ((scache c7w.1 (shardIdx "k" c7w.1.mask)).1.liveB "k" ||
          (scache c7w.1 (shardIdx "k" c7w.1.mask)).2.liveB "k") ∧
      (scache (lru2Store.Delete c7w.1 "k").1 (shardIdx "k" c7w.1.mask)).1.liveB "k" = false) :=
  ⟨⟨by decide, by decide, by decide⟩,
   ⟨(C7_delete_both_tiers c7w.1 "k" (by decide) (by decide) (by decide)).1,
    (C7_delete_both_tiers c7w.1 "k" (by decide) (by decide) (by decide)).2.1⟩⟩

/-- C10 witness: the 10ms-ttl theorem applied to the fresh store `c10w`
(`Set` at clock 0, `Get` at clock `10^7`). -/
theorem C10_set_ten_ms_ttl_witness :
    (shardIdx "k" c10w.mask < c10w.caches.length ∧
      WF (scache c10w (shardIdx "k" c10w.mask)).1 ∧
      (0 : Int) ≤ 0 ∧ (0 : Int) + 10000000 ≤ 10000000) ∧
    ((lru2Store.Get (lru2Store.Set c10w 0 "k" (some 3)).1 10000000 "k").2.2 = (none, false)) :=
  ⟨⟨by decide, by decide, by decide, by decide⟩,
   (C10_set_ten_ms_ttl c10w 0 10000000 "k" (some 3) (by decide) (by decide) (by decide)
     (by decide)).2.2⟩

end LRUCacheProof
